import Mathlib

/-! # MedDoc-Analyzer: the retrying model call and the response cleaner

A shallow embedding of the two pieces of `server/index.js` that carry logic:

* `generateWithRetry` (lines 86-107): a bounded loop around
  `model.generateContent` that waits and tries again on a rate-limit failure;
* the `cleanJson` expression (line 120): the fence markers of the model's
  answer are removed and the result is trimmed.

JavaScript strings are modelled as sequences of characters.  Every pattern the
code searches for is ASCII, so matching code units and matching characters
coincide.  JavaScript numbers are IEEE-754 binary64 values; the ones that occur
here are non-negative, and they are modelled exactly, as fractions of natural
numbers with round-to-nearest, ties-to-even.
-/

namespace MedDoc

/-! ## Strings -/

/-- The method `String.prototype.includes`: `pat` occurs somewhere in `s`. -/
def includes : List Char → List Char → Bool
  | [], pat => pat.isEmpty
  | c :: cs, pat => pat.isPrefixOf (c :: cs) || includes cs pat

/-- The regular-expression class `\d`: the ten ASCII digits. -/
def isDigit (c : Char) : Bool := c.isDigit

/-- The literal text that opens the pattern `/retry in (\d+(\.\d+)?)s/`. -/
def retryIn : List Char := "retry in ".data

/-- Removes `pat` from the front of `s` when `s` starts with it. -/
def dropLiteral : List Char → List Char → Option (List Char)
  | [], s => some s
  | _ :: _, [] => none
  | p :: ps, c :: cs => if p = c then dropLiteral ps cs else none

/-- One attempt of `/retry in (\d+(\.\d+)?)s/` at the start of `s`; the result
is capture group 1.  `\d+` takes the longest digit run, the optional group
`(\.\d+)?` is taken when it matches, and the letter `s` must follow.  Giving
digits back never helps the backtracking matcher: behind a shorter run stands
a digit, where neither `.` nor `s` matches (`matchAt_iff` below compares this
function with the pattern read as a set of texts). -/
def matchAt (s : List Char) : Option (List Char) :=
  match dropLiteral retryIn s with
  | none => none
  | some r =>
    let ds := r.takeWhile isDigit
    if ds = [] then none
    else
      match r.dropWhile isDigit with
      | 's' :: _ => some ds
      | '.' :: r2 =>
        let fs := r2.takeWhile isDigit
        if fs = [] then none
        else
          match r2.dropWhile isDigit with
          | 's' :: _ => some (ds ++ '.' :: fs)
          | _ => none
      | _ => none

/-- The call `message.match(/retry in (\d+(\.\d+)?)s/)` read at index 1: the
pattern is tried at every start position from left to right and the first
position that matches wins.  `none` is JavaScript's `null`. -/
def firstMatch : List Char → Option (List Char)
  | [] => matchAt []
  | c :: cs =>
    match matchAt (c :: cs) with
    | some cap => some cap
    | none => firstMatch cs

/-! ## Numbers -/

/-- A non-negative binary64 value: the fraction `num / den`, or `Infinity`. -/
inductive Dbl where
  | fin (num den : Nat)
  | inf
  deriving DecidableEq, Repr

/-- An integer-valued non-negative binary64 value: a count of milliseconds,
or `Infinity`. -/
inductive Ms where
  | ms (n : Nat)
  | infinity
  deriving DecidableEq, Repr

/-- The integer nearest to `sn / sd`, a tie going to the even neighbour. -/
def roundHalfEven (sn sd : Nat) : Nat :=
  let q := sn / sd
  let r := sn % sd
  if 2 * r < sd then q
  else if sd < 2 * r then q + 1
  else if q % 2 = 0 then q else q + 1

/-- Binary logarithm by repeated halving, at most `fuel` times. -/
def log2Fuel : Nat → Nat → Nat
  | 0, _ => 0
  | fuel + 1, n => if n < 2 then 0 else log2Fuel fuel (n / 2) + 1

/-- The binary logarithm of `n`, rounded down (`0` for `n = 0`). -/
def floorLog2 (n : Nat) : Nat := log2Fuel n n

/-- The least magnitude that is `Infinity` after rounding: `2 ^ 1024`, written
as a product of four equal powers. -/
def overflowBound : Nat := 2 ^ 256 * 2 ^ 256 * 2 ^ 256 * 2 ^ 256

/-- The binary64 value nearest to `num / den` (for `0 < den`), ties to even:
53 significant bits, least normal exponent `-1022`, overflow to `Infinity`
when the rounded value reaches `2 ^ 1024`.  With `e` the binary exponent of
the value, the result is a multiple of the quantum `2 ^ (e - 52)`, or of
`2 ^ (-1074)` for a subnormal value. -/
def roundFrac (num den : Nat) : Dbl :=
  if num = 0 then .fin 0 1
  else if den ≤ num then
    -- the value is at least 1: `2 ^ e ≤ num / den < 2 ^ (e + 1)`
    let e := floorLog2 (num / den)
    if 52 ≤ e then
      let m := roundHalfEven num (den * 2 ^ (e - 52))
      if overflowBound ≤ m * 2 ^ (e - 52) then .inf else .fin (m * 2 ^ (e - 52)) 1
    else .fin (roundHalfEven (num * 2 ^ (52 - e)) den) (2 ^ (52 - e))
  else
    -- the value is below 1: `2 ^ (-t) ≤ num / den < 2 ^ (1 - t)`
    let t0 := floorLog2 den - floorLog2 num
    let t := if den ≤ num * 2 ^ t0 then t0 else t0 + 1
    let s := min t 1022 + 52
    .fin (roundHalfEven (num * 2 ^ s) den) (2 ^ s)

/-- The number a run of decimal digits denotes. -/
def natOfDigits (ds : List Char) : Nat :=
  ds.foldl (fun acc c => 10 * acc + (c.toNat - 48)) 0

/-- The function `parseFloat` on the strings capture group 1 can hold: a digit
run, optionally followed by `.` and a digit run.  The result is the binary64
value nearest to the decimal number, ties to even (the Number value of the
literal, as V8 computes it for any number of digits). -/
def parseFloat (s : List Char) : Dbl :=
  let ds := s.takeWhile isDigit
  let fs :=
    match s.dropWhile isDigit with
    | '.' :: r => r.takeWhile isDigit
    | _ => []
  roundFrac (natOfDigits (ds ++ fs)) (10 ^ fs.length)

/-- The product `x * k` of binary64 arithmetic, for a natural number `k`. -/
def mulD : Dbl → Nat → Dbl
  | .inf, _ => .inf
  | .fin num den, k => roundFrac (num * k) den

/-- The function `Math.ceil`. -/
def ceilD : Dbl → Ms
  | .inf => .infinity
  | .fin num den => .ms ((num + den - 1) / den)

/-- The sum `x + k` of binary64 arithmetic, for an integer-valued `x` and a
natural number `k`.  The rounded sum is again integer-valued, so `ceilD` reads
it off unchanged. -/
def addMs : Ms → Nat → Ms
  | .infinity, _ => .infinity
  | .ms n, k => ceilD (roundFrac (n + k) 1)

/-- The order `k ≤ w` between a natural number and a wait; `Infinity` is above
every number. -/
def Ms.atLeast : Ms → Nat → Prop
  | .ms n, k => k ≤ n
  | .infinity, _ => True

/-! ## The retry loop -/

/-- What `model.generateContent` resolves to; `text` is `response.text()`. -/
structure Response where
  text : String
  deriving DecidableEq, Repr

/-- The error object a failed model call throws.  `status` is `none` when the
property is absent or not a number; `message` is `none` when the property is
`undefined` or `null`. -/
structure UpstreamError where
  status : Option Nat
  message : Option String
  deriving DecidableEq, Repr

/-- What one call of `model.generateContent` does. -/
inductive Outcome where
  | ok (r : Response)
  | fail (e : UpstreamError)
  deriving DecidableEq, Repr

/-- What `generateWithRetry` can throw: the caught error itself (line 102), the
`TypeError` of calling `.match` on a message that is `undefined` or `null`
(line 94), or a new `Error` with the given message (line 106). -/
inductive Failure where
  | upstream (e : UpstreamError)
  | typeError
  | newError (message : String)
  deriving DecidableEq, Repr

/-- How a piece of code ends: with a value, or by throwing. -/
inductive Completion (α : Type) where
  | returns (a : α)
  | throws (f : Failure)
  deriving DecidableEq, Repr

/-- The loop bound of line 87. -/
def maxRetries : Nat := 3

/-- The wait of line 93, in milliseconds. -/
def defaultWait : Ms := .ms 10000

/-- The message of the error thrown on line 106. -/
def busyMessage : String :=
  "Service is currently busy (Rate Limit). Please try again in 2 minutes."

/-- The test of line 92:
`error.status === 429 || (error.message && error.message.includes('429'))`.
An empty message is falsy. -/
def isRateLimited (e : UpstreamError) : Bool :=
  e.status == some 429 ||
    (match e.message with
     | none => false
     | some m => !m.data.isEmpty && includes m.data "429".data)

/-- The wait of line 96 for capture group 1:
`Math.ceil(parseFloat(match[1]) * 1000) + 2000`. -/
def waitOfCapture (cap : List Char) : Ms :=
  addMs (ceilD (mulD (parseFloat cap) 1000)) 2000

/-- Lines 93-97: the wait for a failure that passed the test of line 92.
Calling `.match` on a missing message throws. -/
def computeWait (e : UpstreamError) : Completion Ms :=
  match e.message with
  | none => .throws .typeError
  | some m =>
    match firstMatch m.data with
    | none => .returns defaultWait
    | some cap =>
      if cap.isEmpty then .returns defaultWait else .returns (waitOfCapture cap)

/-- One run of `generateWithRetry`, as seen from outside: how it ended, how
many times `model.generateContent` was called, and the waits passed to
`setTimeout`, in order. -/
structure Run where
  result : Completion Response
  calls : Nat
  sleeps : List Ms
  deriving DecidableEq, Repr

/-- The `for` loop of lines 88-105 with `n` iterations left, after `i` calls
and the waits `sl`; `up i` is what call number `i` (from 0) does.  When no
iteration is left, line 106 throws. -/
def generateLoop (up : Nat → Outcome) : Nat → Nat → List Ms → Run
  | 0, i, sl => ⟨.throws (.newError busyMessage), i, sl⟩
  | n + 1, i, sl =>
    match up i with
    | .ok r => ⟨.returns r, i + 1, sl⟩
    | .fail e =>
      if isRateLimited e then
        match computeWait e with
        | .throws f => ⟨.throws f, i + 1, sl⟩
        | .returns w => generateLoop up n (i + 1) (sl ++ [w])
      else ⟨.throws (.upstream e), i + 1, sl⟩

/-- The function `generateWithRetry` of lines 86-107. -/
def generateWithRetry (up : Nat → Outcome) : Run :=
  generateLoop up maxRetries 0 []

/-! ## The response cleaner -/

/-- The characters `String.prototype.trim` removes: the white space and line
terminator code points of ECMAScript. -/
def isWhiteSpace (c : Char) : Bool :=
  c.toNat = 0x09 || c.toNat = 0x0A || c.toNat = 0x0B || c.toNat = 0x0C ||
  c.toNat = 0x0D || c.toNat = 0x20 || c.toNat = 0xA0 || c.toNat = 0x1680 ||
  (0x2000 ≤ c.toNat && c.toNat ≤ 0x200A) || c.toNat = 0x2028 ||
  c.toNat = 0x2029 || c.toNat = 0x202F || c.toNat = 0x205F ||
  c.toNat = 0x3000 || c.toNat = 0xFEFF

/-- The method `String.prototype.trim`. -/
def trim (l : List Char) : List Char :=
  ((l.dropWhile isWhiteSpace).reverse.dropWhile isWhiteSpace).reverse

/-- The shorter alternative of the pattern of line 120: three backticks. -/
def fence : List Char := ['`', '`', '`']

/-- The call `.replace(/```json|```/g, '')`: scanning from the left, a match of
the first alternative, else of the second, is dropped and the scan goes on
behind it; a character where neither matches is kept. -/
def stripFences : List Char → List Char
  | '`' :: '`' :: '`' :: 'j' :: 's' :: 'o' :: 'n' :: rest => stripFences rest
  | '`' :: '`' :: '`' :: rest => stripFences rest
  | c :: cs => c :: stripFences cs
  | [] => []

/-- Line 120: `responseText.replace(/```json|```/g, '').trim()`. -/
def cleanJson (responseText : String) : String :=
  ⟨trim (stripFences responseText.data)⟩

/-! ## The pattern, the wait and the marks, as the specification words them -/

/-- The text `<number>` of the pattern: decimal digits with an optional
fractional part. -/
def IsNumber (cap : List Char) : Prop :=
  ∃ ds fr, cap = ds ++ fr ∧ ds ≠ [] ∧ (∀ c ∈ ds, isDigit c = true) ∧
    (fr = [] ∨ ∃ fs, fr = '.' :: fs ∧ fs ≠ [] ∧ ∀ c ∈ fs, isDigit c = true)

/-- The text `s` starts with a match of `retry in <number>s` whose number is
`cap`. -/
def MatchesAt (s cap : List Char) : Prop :=
  IsNumber cap ∧ ∃ rest, s = retryIn ++ cap ++ 's' :: rest

/-- The message `m` contains a match of `retry in <number>s`. -/
def HasMatch (m : List Char) : Prop :=
  ∃ pre s cap, m = pre ++ s ∧ MatchesAt s cap

/-- The leftmost match of `retry in <number>s` in `m` has the number `cap`: a
match starts behind `pre`, and none starts inside `pre`. -/
def LeftmostMatch (m cap : List Char) : Prop :=
  ∃ pre s, m = pre ++ s ∧ MatchesAt s cap ∧
    ∀ a b, pre = a ++ b → b ≠ [] → ∀ cap', ¬ MatchesAt (b ++ s) cap'

/-- The wait the spec describes for the number `cap`, in exact arithmetic:
`ceil(seconds × 1000) + 2000`. -/
def specWait (cap : List Char) : Nat :=
  let ds := cap.takeWhile isDigit
  let fs :=
    match cap.dropWhile isDigit with
    | '.' :: r => r.takeWhile isDigit
    | _ => []
  (natOfDigits (ds ++ fs) * 1000 + 10 ^ fs.length - 1) / 10 ^ fs.length + 2000

/-- The error is marked as a rate limit: its status is 429 or its message
contains `429`. -/
def RateLimitMarked (e : UpstreamError) : Prop :=
  e.status = some 429 ∨ ∃ m, e.message = some m ∧ "429".data <:+: m.data

/-! ## Facts about the pattern matcher -/

theorem dropLiteral_eq_some (p s r : List Char) :
    dropLiteral p s = some r ↔ s = p ++ r := by
  induction p generalizing s with
  | nil => simp [dropLiteral, eq_comm]
  | cons a p ih =>
    cases s with
    | nil => simp [dropLiteral]
    | cons c cs =>
      by_cases h : a = c
      · subst h; simp [dropLiteral, ih]
      · simp [dropLiteral, h, Ne.symm h]

theorem takeWhile_digits_append (ds rest : List Char) (h : ∀ c ∈ ds, isDigit c = true)
    (hr : ∀ c, rest.head? = some c → isDigit c = false) :
    (ds ++ rest).takeWhile isDigit = ds ∧ (ds ++ rest).dropWhile isDigit = rest := by
  induction ds with
  | nil =>
    cases rest with
    | nil => simp
    | cons c cs => simp [List.takeWhile_cons, List.dropWhile_cons, hr c (by simp)]
  | cons d ds ih =>
    have hd : isDigit d = true := h d (by simp)
    have := ih (fun c hc => h c (by simp [hc]))
    simp [List.takeWhile_cons, List.dropWhile_cons, hd, this]

theorem digits_of_takeWhile (r : List Char) : ∀ c ∈ r.takeWhile isDigit, isDigit c = true := by
  intro c hc
  exact (List.mem_takeWhile_imp hc)

theorem matchAt_of_matchesAt {s cap : List Char} (h : MatchesAt s cap) :
    matchAt s = some cap := by
  obtain ⟨⟨ds, fr, hcap, hne, hds, hfr⟩, rest, hs⟩ := h
  have hdl : dropLiteral retryIn s = some (cap ++ 's' :: rest) := by
    rw [dropLiteral_eq_some, hs]; simp
  unfold matchAt
  rw [hdl]
  rcases hfr with hfr | ⟨fs, hfr, hfne, hfs⟩
  · subst hfr
    simp only [List.append_nil] at hcap
    subst hcap
    obtain ⟨h1, h2⟩ := takeWhile_digits_append cap ('s' :: rest) hds
      (by intro c hc; simp at hc; subst hc; decide)
    simp only [h1, h2, hne, if_false]
  · subst hfr
    subst hcap
    have e1 : (ds ++ '.' :: fs) ++ 's' :: rest = ds ++ '.' :: (fs ++ 's' :: rest) := by simp
    obtain ⟨h1, h2⟩ := takeWhile_digits_append ds ('.' :: (fs ++ 's' :: rest)) hds
      (by intro c hc; simp at hc; subst hc; decide)
    obtain ⟨h3, h4⟩ := takeWhile_digits_append fs ('s' :: rest) hfs
      (by intro c hc; simp at hc; subst hc; decide)
    simp only [e1, h1, h2, h3, h4, hne, hfne, if_false]

theorem matchesAt_of_matchAt {s cap : List Char} (h : matchAt s = some cap) :
    MatchesAt s cap := by
  unfold matchAt at h
  split at h
  · exact absurd h (by simp)
  · rename_i r hdl
    rw [dropLiteral_eq_some] at hdl
    have hsplit := List.takeWhile_append_dropWhile isDigit r
    simp only at h
    split at h
    · exact absurd h (by simp)
    · rename_i hne
      split at h
      · rename_i rest hdw
        simp only [Option.some.injEq] at h
        subst h
        refine ⟨⟨_, [], by simp, hne, digits_of_takeWhile r, Or.inl rfl⟩, rest, ?_⟩
        rw [hdl, ← hdw, List.append_assoc, hsplit]
      · rename_i r2 hdw
        have hsplit2 := List.takeWhile_append_dropWhile isDigit r2
        split at h
        · exact absurd h (by simp)
        · rename_i hfne
          split at h
          · rename_i rest hdw2
            simp only [Option.some.injEq] at h
            subst h
            refine ⟨⟨_, _, rfl, hne, digits_of_takeWhile r,
              Or.inr ⟨_, rfl, hfne, digits_of_takeWhile r2⟩⟩, rest, ?_⟩
            rw [hdl, ← hdw2]
            simp only [List.append_assoc, List.cons_append]
            rw [hsplit2, ← hdw, hsplit]
          · exact absurd h (by simp)
      · exact absurd h (by simp)

theorem matchAt_iff (s cap : List Char) : matchAt s = some cap ↔ MatchesAt s cap :=
  ⟨matchesAt_of_matchAt, matchAt_of_matchesAt⟩

theorem matchAt_nil : matchAt [] = none := by decide

theorem leftmostMatch_of_matchAt {m cap : List Char} (h : matchAt m = some cap) :
    LeftmostMatch m cap :=
  ⟨[], m, rfl, matchesAt_of_matchAt h, by
    intro a b hab hb
    have : b = [] := by
      have := congrArg List.length hab
      simp at this
      exact List.length_eq_zero.mp (by omega)
    exact absurd this hb⟩

theorem leftmostMatch_cons {c : Char} {cs cap : List Char} (h : matchAt (c :: cs) = none) :
    LeftmostMatch (c :: cs) cap ↔ LeftmostMatch cs cap := by
  constructor
  · rintro ⟨pre, s, hm, hs, hleft⟩
    cases pre with
    | nil =>
      simp only [List.nil_append] at hm
      subst hm
      rw [matchAt_of_matchesAt hs] at h
      exact absurd h (by simp)
    | cons p pre' =>
      simp only [List.cons_append, List.cons.injEq] at hm
      refine ⟨pre', s, hm.2, hs, ?_⟩
      intro a b hab hb
      exact hleft (p :: a) b (by simp [hab]) hb
  · rintro ⟨pre, s, hm, hs, hleft⟩
    refine ⟨c :: pre, s, by simp [hm], hs, ?_⟩
    intro a b hab hb cap' hcap'
    cases a with
    | nil =>
      simp only [List.nil_append] at hab
      subst hab
      have h2 := matchAt_of_matchesAt hcap'
      rw [List.cons_append, ← hm, h] at h2
      exact absurd h2 (by simp)
    | cons x a' =>
      simp only [List.cons_append, List.cons.injEq] at hab
      exact hleft a' b hab.2 hb cap' hcap'

theorem firstMatch_eq_some_iff (m cap : List Char) :
    firstMatch m = some cap ↔ LeftmostMatch m cap := by
  induction m with
  | nil =>
    simp only [firstMatch, matchAt_nil]
    constructor
    · intro h; exact absurd h (by simp)
    · rintro ⟨pre, s, hm, hs, -⟩
      have hs' : s = [] := by
        have := congrArg List.length hm
        simp at this
        exact List.length_eq_zero.mp (by omega)
      subst hs'
      have := matchAt_of_matchesAt hs
      rw [matchAt_nil] at this
      exact absurd this (by simp)
  | cons c cs ih =>
    cases hm : matchAt (c :: cs) with
    | none =>
      simp only [firstMatch, hm]
      rw [ih, leftmostMatch_cons hm]
    | some cap0 =>
      simp only [firstMatch, hm, Option.some.injEq]
      constructor
      · intro h; subst h; exact leftmostMatch_of_matchAt hm
      · rintro ⟨pre, s, hms, hs, hleft⟩
        cases pre with
        | nil =>
          simp only [List.nil_append] at hms
          subst hms
          have := matchAt_of_matchesAt hs
          rw [hm] at this
          exact Option.some.inj this
        | cons p pre' =>
          exact absurd (hms ▸ matchesAt_of_matchAt hm)
            (hleft [] (p :: pre') rfl (by simp) cap0)

theorem firstMatch_eq_none_iff (m : List Char) :
    firstMatch m = none ↔ ¬ HasMatch m := by
  induction m with
  | nil =>
    simp only [firstMatch, matchAt_nil, true_iff]
    rintro ⟨pre, s, cap, hm, hs⟩
    have hs' : s = [] := by
      have := congrArg List.length hm
      simp at this
      exact List.length_eq_zero.mp (by omega)
    subst hs'
    have := matchAt_of_matchesAt hs
    rw [matchAt_nil] at this
    exact absurd this (by simp)
  | cons c cs ih =>
    cases hm : matchAt (c :: cs) with
    | none =>
      simp only [firstMatch, hm]
      rw [ih, not_iff_not]
      constructor
      · rintro ⟨pre, s, cap, hms, hs⟩
        exact ⟨c :: pre, s, cap, by simp [hms], hs⟩
      · rintro ⟨pre, s, cap, hms, hs⟩
        cases pre with
        | nil =>
          simp only [List.nil_append] at hms
          subst hms
          rw [matchAt_of_matchesAt hs] at hm
          exact absurd hm (by simp)
        | cons p pre' =>
          simp only [List.cons_append, List.cons.injEq] at hms
          exact ⟨pre', s, cap, hms.2, hs⟩
    | some cap0 =>
      simp only [firstMatch, hm]
      constructor
      · intro h; exact absurd h (by simp)
      · intro h
        exact absurd ⟨[], c :: cs, cap0, rfl, matchesAt_of_matchAt hm⟩ h

theorem includes_iff (s pat : List Char) : includes s pat = true ↔ pat <:+: s := by
  induction s with
  | nil =>
    cases pat <;> simp [includes]
  | cons c cs ih =>
    simp only [includes, Bool.or_eq_true, ih, List.infix_cons_iff, List.isPrefixOf_iff_prefix]

/-! ## Facts about the binary64 arithmetic -/

theorem log2Fuel_eq_log (fuel n : Nat) (h : n ≤ fuel) : log2Fuel fuel n = Nat.log 2 n := by
  induction fuel generalizing n with
  | zero =>
    have : n = 0 := by omega
    subst this
    simp [log2Fuel]
  | succ f ih =>
    unfold log2Fuel
    by_cases h2 : n < 2
    · simp [h2, Nat.log_of_lt h2]
    · have hle : 2 ≤ n := by omega
      have hhalf : n / 2 ≤ f := by omega
      rw [if_neg h2, ih _ hhalf, Nat.log_of_one_lt_of_le (by decide) hle]

theorem floorLog2_eq_log (n : Nat) : floorLog2 n = Nat.log 2 n :=
  log2Fuel_eq_log n n le_rfl

theorem pow_floorLog2_le (n : Nat) (h : n ≠ 0) : 2 ^ floorLog2 n ≤ n := by
  rw [floorLog2_eq_log]; exact Nat.pow_log_le_self 2 h

theorem floorLog2_lt (n k : Nat) (h : n < 2 ^ k) : floorLog2 n < k ∨ n = 0 := by
  by_cases h0 : n = 0
  · exact Or.inr h0
  · left
    by_contra hk
    have h1 : 2 ^ k ≤ 2 ^ floorLog2 n := Nat.pow_le_pow_right (by decide) (by omega)
    have h2 := pow_floorLog2_le n h0
    omega

theorem roundHalfEven_exact (a d : Nat) (hd : 0 < d) : roundHalfEven (a * d) d = a := by
  simp [roundHalfEven, Nat.mul_div_cancel _ hd, hd]

theorem div_le_roundHalfEven (sn sd : Nat) : sn / sd ≤ roundHalfEven sn sd := by
  unfold roundHalfEven
  simp only
  split
  · exact le_rfl
  · split
    · omega
    · split <;> omega

theorem pow53_le_overflowBound : (2 : Nat) ^ 53 ≤ overflowBound := by decide

/-- Rounding a natural number from `2 ^ 52` on: the branch with a quantum of
at least one. -/
theorem roundFrac_nat_big (N : Nat) (h : 52 ≤ floorLog2 N) (h0 : N ≠ 0) :
    roundFrac N 1 =
      if overflowBound ≤ roundHalfEven N (2 ^ (floorLog2 N - 52)) * 2 ^ (floorLog2 N - 52)
      then .inf
      else .fin (roundHalfEven N (2 ^ (floorLog2 N - 52)) * 2 ^ (floorLog2 N - 52)) 1 := by
  have h1 : 1 ≤ N := Nat.pos_of_ne_zero h0
  unfold roundFrac
  rw [if_neg h0, if_pos h1]
  simp only [Nat.div_one, Nat.one_mul]
  rw [if_pos h]

/-- A positive integer below `2 ^ 53` is a binary64 value: rounding the
fraction `k * den / den` returns a fraction equal to `k`. -/
theorem roundFrac_exact (k den : Nat) (hk : k < 2 ^ 53) (hden : 0 < den) :
    ∃ d, 0 < d ∧ roundFrac (k * den) den = .fin (k * d) d := by
  by_cases hk0 : k = 0
  · subst hk0
    exact ⟨1, by decide, by simp [roundFrac]⟩
  · have hkpos : 0 < k := Nat.pos_of_ne_zero hk0
    have hnum : k * den ≠ 0 := Nat.mul_ne_zero hk0 (by omega)
    have hle : den ≤ k * den := Nat.le_mul_of_pos_left den hkpos
    have hdiv : k * den / den = k := Nat.mul_div_cancel _ hden
    have he : floorLog2 k < 53 := by
      rcases floorLog2_lt k 53 hk with h | h
      · exact h
      · exact absurd h hk0
    unfold roundFrac
    simp only [hnum, if_false, hle, if_true, hdiv]
    by_cases h52 : 52 ≤ floorLog2 k
    · have : floorLog2 k = 52 := by omega
      refine ⟨1, by decide, ?_⟩
      have hlt : ¬ overflowBound ≤ k := by
        have : (2 : Nat) ^ 53 ≤ overflowBound := pow53_le_overflowBound
        omega
      simp [this, roundHalfEven_exact k den hden, hlt]
    · refine ⟨2 ^ (52 - floorLog2 k), Nat.two_pow_pos _, ?_⟩
      have : k * den * 2 ^ (52 - floorLog2 k) = k * 2 ^ (52 - floorLog2 k) * den := by ring
      simp [h52, this, roundHalfEven_exact _ den hden]

theorem ceilD_exact (k d : Nat) (hd : 0 < d) : ceilD (.fin (k * d) d) = .ms k := by
  simp only [ceilD, Ms.ms.injEq]
  have : k * d + d - 1 = d - 1 + k * d := by omega
  rw [this, Nat.add_mul_div_right _ _ hd, Nat.div_eq_of_lt (by omega)]
  simp

theorem addMs_exact (n k : Nat) (h : n + k < 2 ^ 53) : addMs (.ms n) k = .ms (n + k) := by
  obtain ⟨d, hd, hr⟩ := roundFrac_exact (n + k) 1 h (by decide)
  simp only [Nat.mul_one] at hr
  simp only [addMs, hr, ceilD_exact _ _ hd]

theorem addMs_atLeast (w : Ms) (k : Nat) (hk : k < 2 ^ 52) : (addMs w k).atLeast k := by
  cases w with
  | infinity => simp [addMs, Ms.atLeast]
  | ms n =>
    by_cases h : n + k < 2 ^ 53
    · rw [addMs_exact n k h]
      simp [Ms.atLeast]
    · have hN : 2 ^ 53 ≤ n + k := by omega
      have hN0 : n + k ≠ 0 := by
        have : 0 < 2 ^ 53 := Nat.two_pow_pos _
        omega
      have he : 53 ≤ floorLog2 (n + k) := by
        by_contra hc
        have h1 : floorLog2 (n + k) + 1 ≤ 53 := by omega
        have h2 : n + k < 2 ^ (floorLog2 (n + k) + 1) := by
          rw [floorLog2_eq_log]; exact Nat.lt_pow_succ_log_self (by decide) _
        have h3 : 2 ^ (floorLog2 (n + k) + 1) ≤ 2 ^ 53 := Nat.pow_le_pow_right (by decide) h1
        omega
      have hpow := pow_floorLog2_le (n + k) hN0
      have h1 : 1 ≤ n + k := by omega
      have h52 : 52 ≤ floorLog2 (n + k) := by omega
      show (ceilD (roundFrac (n + k) 1)).atLeast k
      rw [roundFrac_nat_big (n + k) h52 hN0]
      by_cases hov : overflowBound ≤
          roundHalfEven (n + k) (2 ^ (floorLog2 (n + k) - 52)) * 2 ^ (floorLog2 (n + k) - 52)
      · rw [if_pos hov]
        exact True.intro
      · rw [if_neg hov]
        show k ≤ (_ + 1 - 1) / 1
        rw [Nat.add_sub_cancel, Nat.div_one]
        generalize floorLog2 (n + k) = e at *
        have hq : 2 ^ 52 ≤ (n + k) / 2 ^ (e - 52) := by
          rw [Nat.le_div_iff_mul_le (Nat.two_pow_pos _), ← pow_add]
          have : 52 + (e - 52) = e := by omega
          rw [this]; exact hpow
        have hm := div_le_roundHalfEven (n + k) (2 ^ (e - 52))
        have hp : 1 ≤ 2 ^ (e - 52) := Nat.two_pow_pos _
        calc k ≤ 2 ^ 52 := by omega
          _ ≤ roundHalfEven (n + k) (2 ^ (e - 52)) := le_trans hq hm
          _ ≤ roundHalfEven (n + k) (2 ^ (e - 52)) * 2 ^ (e - 52) :=
            Nat.le_mul_of_pos_right _ hp

theorem waitOfCapture_atLeast (cap : List Char) : (waitOfCapture cap).atLeast 2000 :=
  addMs_atLeast _ 2000 (by decide)

theorem takeWhile_all (ds : List Char) (h : ∀ c ∈ ds, isDigit c = true) :
    ds.takeWhile isDigit = ds ∧ ds.dropWhile isDigit = [] := by
  have := takeWhile_digits_append ds [] h (by simp)
  simpa using this

/-- For a whole number of seconds whose wait stays below `2 ^ 53`, binary64
arithmetic is exact. -/
theorem waitOfCapture_whole (ds : List Char) (h : ∀ c ∈ ds, isDigit c = true)
    (hb : natOfDigits ds * 1000 + 2000 < 2 ^ 53) :
    waitOfCapture ds = .ms (natOfDigits ds * 1000 + 2000) := by
  obtain ⟨h1, h2⟩ := takeWhile_all ds h
  have hn : natOfDigits ds < 2 ^ 53 := by omega
  have hn' : natOfDigits ds * 1000 < 2 ^ 53 := by omega
  obtain ⟨d, hd, hr⟩ := roundFrac_exact (natOfDigits ds) 1 hn (by decide)
  simp only [Nat.mul_one] at hr
  obtain ⟨d', hd', hr'⟩ := roundFrac_exact (natOfDigits ds * 1000) d hn' hd
  have hmul : natOfDigits ds * d * 1000 = natOfDigits ds * 1000 * d := by ring
  simp only [waitOfCapture, parseFloat, h1, h2, List.append_nil, List.length_nil, pow_zero, hr,
    mulD, hmul, hr', ceilD_exact _ _ hd', addMs_exact _ _ hb]

theorem specWait_whole (ds : List Char) (h : ∀ c ∈ ds, isDigit c = true) :
    specWait ds = natOfDigits ds * 1000 + 2000 := by
  obtain ⟨h1, h2⟩ := takeWhile_all ds h
  simp [specWait, h1, h2]


/-! ## Facts about the response cleaner -/

theorem stripFences_head (l : List Char) (h : l.head? ≠ some '`') :
    (stripFences l).head? ≠ some '`' := by
  cases l with
  | nil => simp [stripFences]
  | cons c cs =>
    have hc : c ≠ '`' := by simpa using h
    rw [stripFences.eq_3 c cs (fun _ h1 _ => hc h1) (fun _ h1 _ => hc h1)]
    simpa using hc

theorem fence_not_isPrefix_cons_strip (c : Char) (cs : List Char)
    (h : ∀ rest, c = '`' → cs = '`' :: '`' :: rest → False) :
    ¬ fence <+: c :: stripFences cs := by
  rintro ⟨t, ht⟩
  simp only [fence, List.cons_append, List.nil_append, List.cons.injEq] at ht
  obtain ⟨hc, hs⟩ := ht
  cases cs with
  | nil => simp [stripFences] at hs
  | cons d cs' =>
    by_cases hd : d = '`'
    · subst hd
      have h' : cs'.head? ≠ some '`' := by
        cases cs' with
        | nil => simp
        | cons x xs =>
          intro hx
          simp only [List.head?_cons, Option.some.injEq] at hx
          exact h xs hc.symm (by rw [hx])
      have hne : ∀ rest, cs' = '`' :: rest → False := by
        intro rest hr
        apply h'
        simp [hr]
      rw [stripFences.eq_3 '`' cs' (fun rest _ h2 => hne _ h2) (fun rest _ h2 => hne _ h2)] at hs
      simp only [List.cons.injEq, true_and] at hs
      apply stripFences_head cs' h'
      simp [hs.symm]
    · apply stripFences_head (d :: cs') (by simpa using hd)
      simp [← hs]

theorem stripFences_no_fence (l : List Char) : ¬ fence <:+: stripFences l := by
  induction l using stripFences.induct with
  | case1 rest ih => rw [stripFences.eq_1]; exact ih
  | case2 rest h ih => rw [stripFences.eq_2 rest h]; exact ih
  | case3 c cs h1 h2 ih =>
    rw [stripFences.eq_3 c cs h1 h2, List.infix_cons_iff]
    rintro (hp | hi)
    · exact fence_not_isPrefix_cons_strip c cs h2 hp
    · exact ih hi
  | case4 => simp [stripFences, fence]

theorem stripFences_eq_self (l : List Char) (h : ¬ fence <:+: l) :
    stripFences l = l := by
  induction l using stripFences.induct with
  | case1 rest ih =>
    exact absurd ⟨[], 'j' :: 's' :: 'o' :: 'n' :: rest, by simp [fence]⟩ h
  | case2 rest h1 ih =>
    exact absurd ⟨[], rest, by simp [fence]⟩ h
  | case3 c cs h1 h2 ih =>
    rw [stripFences.eq_3 c cs h1 h2, ih]
    intro hi
    exact h (List.infix_cons hi)
  | case4 => simp [stripFences]

theorem trim_isInfix (l : List Char) : trim l <:+: l := by
  have h1 : trim l <+: l.dropWhile isWhiteSpace := by
    have := List.rdropWhile_prefix isWhiteSpace (l.dropWhile isWhiteSpace)
    simpa [trim, List.rdropWhile] using this
  exact h1.isInfix.trans (List.dropWhile_suffix isWhiteSpace).isInfix

theorem trim_head (l : List Char) (c : Char) (h : (trim l).head? = some c) :
    isWhiteSpace c = false := by
  have h1 : trim l <+: l.dropWhile isWhiteSpace := by
    have := List.rdropWhile_prefix isWhiteSpace (l.dropWhile isWhiteSpace)
    simpa [trim, List.rdropWhile] using this
  obtain ⟨t, ht⟩ := h1
  cases hr : trim l with
  | nil => simp [hr] at h
  | cons x xs =>
    rw [hr] at h ht
    simp only [List.head?_cons, Option.some.injEq] at h
    subst h
    have hd : (l.dropWhile isWhiteSpace).head? = some x := by simp [← ht]
    have := List.head?_dropWhile_not isWhiteSpace l
    rw [hd] at this
    simpa using this

theorem trim_trim (l : List Char) : trim (trim l) = trim l := by
  have hd : (trim l).dropWhile isWhiteSpace = trim l := by
    cases hr : trim l with
    | nil => rfl
    | cons x xs =>
      have := trim_head l x (by simp [hr])
      simp [List.dropWhile_cons, this]
  have hr : List.rdropWhile isWhiteSpace (trim l) = trim l := by
    have : trim l = List.rdropWhile isWhiteSpace (l.dropWhile isWhiteSpace) := by
      simp [trim, List.rdropWhile]
    rw [this, List.rdropWhile_idempotent]
  calc trim (trim l)
      = List.rdropWhile isWhiteSpace ((trim l).dropWhile isWhiteSpace) := by
        simp [trim, List.rdropWhile]
    _ = trim l := by rw [hd, hr]

/-! ## Facts about the retry loop -/

theorem computeWait_of_message {e : UpstreamError} {m : String} (h : e.message = some m) :
    ∃ w, computeWait e = .returns w := by
  unfold computeWait
  rw [h]
  simp only
  split
  · exact ⟨_, rfl⟩
  · split <;> exact ⟨_, rfl⟩

/-- The only thing the wait computation throws is the `TypeError` of a missing
message. -/
theorem computeWait_throws {e : UpstreamError} {f : Failure} (h : computeWait e = .throws f) :
    f = .typeError := by
  unfold computeWait at h
  split at h
  · simp only [Completion.throws.injEq] at h
    exact h.symm
  · split at h
    · simp at h
    · split at h <;> simp at h

theorem isNumber_ne_nil {cap : List Char} (h : IsNumber cap) : cap ≠ [] := by
  obtain ⟨ds, fr, hcap, hne, -, -⟩ := h
  subst hcap
  simp [hne]

theorem computeWait_of_leftmost {e : UpstreamError} {m : String} {cap : List Char}
    (h : e.message = some m) (hl : LeftmostMatch m.data cap) :
    computeWait e = .returns (waitOfCapture cap) := by
  have hne : cap ≠ [] := by
    obtain ⟨_, _, _, hs, _⟩ := hl
    exact isNumber_ne_nil hs.1
  have hf := (firstMatch_eq_some_iff m.data cap).mpr hl
  unfold computeWait
  rw [h]
  simp only [hf]
  cases cap with
  | nil => exact absurd rfl hne
  | cons c cs => simp

theorem computeWait_of_no_match {e : UpstreamError} {m : String}
    (h : e.message = some m) (hn : ¬ HasMatch m.data) :
    computeWait e = .returns defaultWait := by
  have hf := (firstMatch_eq_none_iff m.data).mpr hn
  unfold computeWait
  rw [h]
  simp only [hf]

theorem generateLoop_ok (up : Nat → Outcome) (n i : Nat) (sl : List Ms) (r : Response)
    (h : up i = .ok r) : generateLoop up (n + 1) i sl = ⟨.returns r, i + 1, sl⟩ := by
  simp [generateLoop, h]

theorem generateLoop_other (up : Nat → Outcome) (n i : Nat) (sl : List Ms) (e : UpstreamError)
    (h : up i = .fail e) (hr : isRateLimited e = false) :
    generateLoop up (n + 1) i sl = ⟨.throws (.upstream e), i + 1, sl⟩ := by
  simp [generateLoop, h, hr]

theorem generateLoop_wait (up : Nat → Outcome) (n i : Nat) (sl : List Ms) (e : UpstreamError)
    (w : Ms) (h : up i = .fail e) (hr : isRateLimited e = true)
    (hw : computeWait e = .returns w) :
    generateLoop up (n + 1) i sl = generateLoop up n (i + 1) (sl ++ [w]) := by
  simp [generateLoop, h, hr, hw]

theorem generateLoop_throw (up : Nat → Outcome) (n i : Nat) (sl : List Ms) (e : UpstreamError)
    (f : Failure) (h : up i = .fail e) (hr : isRateLimited e = true)
    (hw : computeWait e = .throws f) :
    generateLoop up (n + 1) i sl = ⟨.throws f, i + 1, sl⟩ := by
  simp [generateLoop, h, hr, hw]

/-- The waits already made stay at the front of the list of waits. -/
theorem generateLoop_sleeps (up : Nat → Outcome) (n i : Nat) (sl : List Ms) :
    sl <+: (generateLoop up n i sl).sleeps := by
  induction n generalizing i sl with
  | zero => simp [generateLoop]
  | succ n ih =>
    cases h : up i with
    | ok r => rw [generateLoop_ok up n i sl r h]
    | fail e =>
      cases hr : isRateLimited e with
      | false => rw [generateLoop_other up n i sl e h hr]
      | true =>
        cases hw : computeWait e with
        | throws f => rw [generateLoop_throw up n i sl e f h hr hw]
        | returns w =>
          rw [generateLoop_wait up n i sl e w h hr hw]
          exact (List.prefix_append sl [w]).trans (ih (i + 1) (sl ++ [w]))

/-- After `k` rate-limited failures with a message in a row, the loop has made
`k` more calls and `k` more waits. -/
theorem generateLoop_skip (up : Nat → Outcome) (k n i : Nat) (sl : List Ms)
    (h : ∀ j, i ≤ j → j < i + k →
      ∃ e m, up j = .fail e ∧ isRateLimited e = true ∧ e.message = some m) :
    ∃ ws, ws.length = k ∧
      generateLoop up (n + k) i sl = generateLoop up n (i + k) (sl ++ ws) := by
  induction k generalizing i sl with
  | zero => exact ⟨[], rfl, by simp⟩
  | succ k ih =>
    obtain ⟨e, m, hf, hr, hm⟩ := h i le_rfl (by omega)
    obtain ⟨w, hw⟩ := computeWait_of_message hm
    obtain ⟨ws, hlen, hws⟩ := ih (i + 1) (sl ++ [w]) (fun j h1 h2 => h j (by omega) (by omega))
    refine ⟨w :: ws, by simp [hlen], ?_⟩
    have e1 : n + (k + 1) = (n + k) + 1 := by omega
    have e2 : i + (k + 1) = i + 1 + k := by omega
    rw [e1, generateLoop_wait up (n + k) i sl e w hf hr hw, hws, e2]
    simp

/-- The wait for a rate-limited first failure is the first wait of the run. -/
theorem first_sleep (up : Nat → Outcome) (e : UpstreamError) (w : Ms)
    (h : up 0 = .fail e) (hr : isRateLimited e = true) (hw : computeWait e = .returns w) :
    (generateWithRetry up).sleeps.head? = some w := by
  unfold generateWithRetry maxRetries
  rw [generateLoop_wait up 2 0 [] e w h hr hw]
  obtain ⟨t, ht⟩ := generateLoop_sleeps up 2 (0 + 1) ([] ++ [w])
  rw [← ht]
  simp

theorem isRateLimited_iff (e : UpstreamError) : isRateLimited e = true ↔ RateLimitMarked e := by
  unfold isRateLimited RateLimitMarked
  cases hm : e.message with
  | none => simp
  | some m =>
    simp only [Bool.or_eq_true, beq_iff_eq, Bool.and_eq_true, Bool.not_eq_true',
      includes_iff, Option.some.injEq, exists_eq_left']
    constructor
    · rintro (h | ⟨-, h⟩)
      · exact Or.inl h
      · exact Or.inr h
    · rintro (h | h)
      · exact Or.inl h
      · refine Or.inr ⟨?_, h⟩
        cases hd : m.data with
        | nil =>
          rw [hd] at h
          have := List.eq_nil_of_infix_nil h
          exact absurd this (by decide)
        | cons c cs => rfl

/-- When every call fails with a rate-limited error that carries a message,
the loop makes three calls and three waits, then throws the fixed error. -/
theorem generateWithRetry_exhausted (up : Nat → Outcome)
    (h : ∀ j, j < maxRetries →
      ∃ e m, up j = .fail e ∧ isRateLimited e = true ∧ e.message = some m) :
    ∃ ws, ws.length = 3 ∧
      generateWithRetry up = ⟨.throws (.newError busyMessage), 3, ws⟩ := by
  obtain ⟨ws, hlen, hws⟩ := generateLoop_skip up 3 0 0 []
    (fun j _ h2 => h j (by simpa [maxRetries] using h2))
  refine ⟨ws, hlen, ?_⟩
  unfold generateWithRetry maxRetries
  rw [show (3 : Nat) = 0 + 3 from rfl, hws]
  simp [generateLoop]

/-- When the first `k < 3` calls fail with rate-limited errors that carry a
message and call `k` succeeds, its response is returned after `k + 1` calls
and `k` waits. -/
theorem generateWithRetry_succeeds (up : Nat → Outcome) (k : Nat) (r : Response)
    (hk : k < maxRetries)
    (h : ∀ j, j < k →
      ∃ e m, up j = .fail e ∧ isRateLimited e = true ∧ e.message = some m)
    (hok : up k = .ok r) :
    ∃ ws, ws.length = k ∧ generateWithRetry up = ⟨.returns r, k + 1, ws⟩ := by
  obtain ⟨ws, hlen, hws⟩ := generateLoop_skip up k (maxRetries - k) 0 []
    (fun j _ h2 => h j (by omega))
  refine ⟨ws, hlen, ?_⟩
  unfold generateWithRetry
  have e1 : maxRetries = maxRetries - k + k := by omega
  have e2 : maxRetries - k = (maxRetries - k - 1) + 1 := by omega
  rw [e1, hws, e2, Nat.zero_add, generateLoop_ok up _ k _ r hok]
  simp

/-! ## The claims -/

/-- C1: when every call fails with status 429 and the error has no message,
`generateWithRetry` does not reach three calls and the fixed busy error: the
first failure ends the run with a `TypeError` after one call. -/
theorem generateWithRetry_messageless_429_every_call :
    isRateLimited ⟨some 429, none⟩ = true ∧
    (generateWithRetry (fun _ => .fail ⟨some 429, none⟩)).calls = 1 ∧
    (generateWithRetry (fun _ => .fail ⟨some 429, none⟩)).result = .throws .typeError ∧
    (generateWithRetry (fun _ => .fail ⟨some 429, none⟩)).result ≠
      .throws (.newError busyMessage) := by
  decide

/-- C2: at whatever attempt a call fails with an error that is not
rate-limited (the earlier calls having failed with rate-limited errors that
carry a message), no further call is made, no wait is added for that failure,
and the run throws that very error. -/
theorem nonRateLimited_failure_propagates (up : Nat → Outcome) (k : Nat) (e : UpstreamError)
    (hk : k < maxRetries)
    (hprev : ∀ j, j < k →
      ∃ e' m, up j = .fail e' ∧ isRateLimited e' = true ∧ e'.message = some m)
    (hfail : up k = .fail e) (hnot : isRateLimited e = false) :
    ∃ ws, ws.length = k ∧
      generateWithRetry up = ⟨.throws (.upstream e), k + 1, ws⟩ := by
  obtain ⟨ws, hlen, hws⟩ := generateLoop_skip up k (maxRetries - k) 0 []
    (fun j _ h2 => hprev j (by omega))
  refine ⟨ws, hlen, ?_⟩
  unfold generateWithRetry
  have e1 : maxRetries = maxRetries - k + k := by omega
  have e2 : maxRetries - k = (maxRetries - k - 1) + 1 := by omega
  rw [e1, hws, e2, Nat.zero_add, generateLoop_other up _ k _ e hfail hnot]
  simp

/-- A rate-limited failure, then a failure with status 500: the second error
is thrown after two calls and one wait. -/
theorem nonRateLimited_failure_propagates_witness :
    ∃ ws, ws.length = 1 ∧
      generateWithRetry
        (fun i => if i = 0 then .fail ⟨some 429, some "Too Many Requests"⟩
          else .fail ⟨some 500, some "Internal error"⟩) =
        ⟨.throws (.upstream ⟨some 500, some "Internal error"⟩), 1 + 1, ws⟩ :=
  nonRateLimited_failure_propagates
    (fun i => if i = 0 then .fail ⟨some 429, some "Too Many Requests"⟩
      else .fail ⟨some 500, some "Internal error"⟩)
    1 ⟨some 500, some "Internal error"⟩ (by decide)
    (fun j hj => by
      have hj0 : j = 0 := by omega
      subst hj0
      exact ⟨⟨some 429, some "Too Many Requests"⟩, "Too Many Requests", rfl, by decide, rfl⟩)
    rfl (by decide)

/-- C3: when the first call fails with status 429 and no message and the
second call would succeed, the second call is never made: the run ends with a
`TypeError` after one call. -/
theorem success_after_messageless_429_not_reached :
    generateWithRetry
      (fun i => if i = 0 then .fail ⟨some 429, none⟩ else .ok ⟨"{}"⟩) =
      ⟨.throws .typeError, 1, []⟩ := by
  decide

/-- C4, as stated, fails: an error without status 429 and without `429` in its
message, whose message contains `retry in 5s`, is not classified as
rate-limited; it is thrown after one call, without a wait. -/
theorem retry_hint_alone_not_rate_limited :
    HasMatch "Please retry in 5s.".data ∧
    isRateLimited ⟨some 503, some "Please retry in 5s."⟩ = false ∧
    generateWithRetry (fun _ => .fail ⟨some 503, some "Please retry in 5s."⟩) =
      ⟨.throws (.upstream ⟨some 503, some "Please retry in 5s."⟩), 1, []⟩ := by
  refine ⟨?_, by decide, by decide⟩
  exact ⟨"Please ".data, "retry in 5s.".data, "5".data, rfl,
    matchesAt_of_matchAt (by decide)⟩

/-- C4, amended: a failure is classified as rate-limited exactly when its
status is 429 or its message contains `429`, and a failed first call is thrown
back unchanged, after that one call and without a wait, exactly when the error
is not so marked. -/
theorem rateLimited_iff_marked (up : Nat → Outcome) (e : UpstreamError)
    (hfail : up 0 = .fail e) :
    (isRateLimited e = true ↔ RateLimitMarked e) ∧
    (generateWithRetry up = ⟨.throws (.upstream e), 1, []⟩ ↔ ¬ RateLimitMarked e) := by
  refine ⟨isRateLimited_iff e, ?_⟩
  rw [← isRateLimited_iff]
  constructor
  · intro hrun hr
    cases hw : computeWait e with
    | throws f =>
      have hf := computeWait_throws hw
      subst hf
      have : generateWithRetry up = ⟨.throws .typeError, 1, []⟩ :=
        generateLoop_throw up 2 0 [] e _ hfail hr hw
      rw [this] at hrun
      simp at hrun
    | returns w =>
      have := first_sleep up e w hfail hr hw
      rw [hrun] at this
      simp at this
  · intro hr
    have hr' : isRateLimited e = false := by simpa using hr
    exact generateLoop_other up 2 0 [] e hfail hr'

/-- An error with status 503 and the message `Please retry in 5s.` is not
marked and is thrown back unchanged. -/
theorem rateLimited_iff_marked_witness :
    (fun _ => Outcome.fail ⟨some 503, some "Please retry in 5s."⟩) 0 =
      .fail ⟨some 503, some "Please retry in 5s."⟩ ∧
    ((isRateLimited ⟨some 503, some "Please retry in 5s."⟩ = true ↔
        RateLimitMarked ⟨some 503, some "Please retry in 5s."⟩) ∧
     (generateWithRetry (fun _ => .fail ⟨some 503, some "Please retry in 5s."⟩) =
        ⟨.throws (.upstream ⟨some 503, some "Please retry in 5s."⟩), 1, []⟩ ↔
        ¬ RateLimitMarked ⟨some 503, some "Please retry in 5s."⟩)) :=
  ⟨rfl, rateLimited_iff_marked (fun _ => .fail ⟨some 503, some "Please retry in 5s."⟩)
    ⟨some 503, some "Please retry in 5s."⟩ rfl⟩

/-- C5, as stated, fails: a rate-limited error whose message contains
`retry in 5s` behind an earlier hint gets the wait of the earlier hint, and an
error that is not rate-limited gets no wait at all. -/
theorem retry_in_5s_not_always_7000 :
    (includes "429: retry in 1s, at the latest retry in 5s".data "retry in 5s".data = true ∧
     isRateLimited ⟨some 429, some "429: retry in 1s, at the latest retry in 5s"⟩ = true ∧
     computeWait ⟨some 429, some "429: retry in 1s, at the latest retry in 5s"⟩ =
       .returns (.ms 3000)) ∧
    (includes "Please retry in 5s.".data "retry in 5s".data = true ∧
     (generateWithRetry (fun _ => .fail ⟨none, some "Please retry in 5s."⟩)).sleeps = []) := by
  decide

/-- C5, amended: for a rate-limited failure whose message has `retry in 5s` as
its leftmost match of the pattern, the computed wait, which is the first wait
of the run when the failure is that of the first call, is 7000 ms. -/
theorem leftmost_retry_in_5s_waits_7000 (up : Nat → Outcome) (e : UpstreamError) (m : String)
    (hfail : up 0 = .fail e) (hm : e.message = some m) (hr : isRateLimited e = true)
    (hl : LeftmostMatch m.data "5".data) :
    computeWait e = .returns (.ms 7000) ∧
    (generateWithRetry up).sleeps.head? = some (.ms 7000) := by
  have hw : computeWait e = .returns (.ms 7000) := by
    rw [computeWait_of_leftmost hm hl]
    decide
  exact ⟨hw, first_sleep up e _ hfail hr hw⟩

/-- The message `429 quota exceeded, retry in 5s (or retry in 60s)`: the first
hint decides. -/
theorem leftmost_retry_in_5s_waits_7000_witness :
    LeftmostMatch "429 quota exceeded, retry in 5s (or retry in 60s)".data "5".data ∧
    (computeWait ⟨none, some "429 quota exceeded, retry in 5s (or retry in 60s)"⟩ =
       .returns (.ms 7000) ∧
     (generateWithRetry (fun _ =>
        .fail ⟨none, some "429 quota exceeded, retry in 5s (or retry in 60s)"⟩)).sleeps.head? =
       some (.ms 7000)) :=
  ⟨(firstMatch_eq_some_iff _ _).mp (by decide),
   leftmost_retry_in_5s_waits_7000
    (fun _ => .fail ⟨none, some "429 quota exceeded, retry in 5s (or retry in 60s)"⟩)
    ⟨none, some "429 quota exceeded, retry in 5s (or retry in 60s)"⟩
    "429 quota exceeded, retry in 5s (or retry in 60s)" rfl rfl (by decide)
    ((firstMatch_eq_some_iff _ _).mp (by decide))⟩

/-- C6, as stated, fails: for `retry in 2.007s` the exact formula gives
`ceil(2.007 * 1000) + 2000 = 4007`, but the binary64 product `2.007 * 1000` lies
above 2007 and the computed wait is 4008 ms. -/
theorem wait_differs_from_exact_ceiling :
    isRateLimited ⟨some 429, some "Please retry in 2.007s."⟩ = true ∧
    LeftmostMatch "Please retry in 2.007s.".data "2.007".data ∧
    specWait "2.007".data = 4007 ∧
    computeWait ⟨some 429, some "Please retry in 2.007s."⟩ = .returns (.ms 4008) :=
  ⟨by decide, (firstMatch_eq_some_iff _ _).mp (by decide), by decide, by decide⟩

/-- C6, amended: for a rate-limited failure whose message contains a match of
the pattern, the computed wait is `Math.ceil(parseFloat(n) * 1000) + 2000` in
binary64 arithmetic, `n` being the number of the leftmost match; it is the
first wait of the run when the failure is that of the first call; it is at
least 2000 ms; and for a whole number of seconds with a result below `2 ^ 53`
it is exactly `n * 1000 + 2000`. -/
theorem wait_of_leftmost_match (up : Nat → Outcome) (e : UpstreamError) (m : String)
    (cap : List Char) (hfail : up 0 = .fail e) (hm : e.message = some m)
    (hr : isRateLimited e = true) (hl : LeftmostMatch m.data cap) :
    computeWait e = .returns (waitOfCapture cap) ∧
    (generateWithRetry up).sleeps.head? = some (waitOfCapture cap) ∧
    (waitOfCapture cap).atLeast 2000 ∧
    ((∀ c ∈ cap, isDigit c = true) → specWait cap < 2 ^ 53 →
      waitOfCapture cap = .ms (specWait cap) ∧
      specWait cap = natOfDigits cap * 1000 + 2000) := by
  have hw := computeWait_of_leftmost hm hl
  refine ⟨hw, first_sleep up e _ hfail hr hw, waitOfCapture_atLeast cap, ?_⟩
  intro hd hb
  have hs := specWait_whole cap hd
  rw [hs] at hb
  exact ⟨by rw [hs]; exact waitOfCapture_whole cap hd hb, hs⟩

/-- The message `429 Too Many Requests: retry in 38s, not retry in 1s`: the
wait is 40000 ms. -/
theorem wait_of_leftmost_match_witness :
    LeftmostMatch "429 Too Many Requests: retry in 38s, not retry in 1s".data "38".data ∧
    (computeWait ⟨some 429, some "429 Too Many Requests: retry in 38s, not retry in 1s"⟩ =
       .returns (waitOfCapture "38".data) ∧
     (generateWithRetry (fun _ =>
        .fail ⟨some 429,
          some "429 Too Many Requests: retry in 38s, not retry in 1s"⟩)).sleeps.head? =
       some (waitOfCapture "38".data) ∧
     (waitOfCapture "38".data).atLeast 2000 ∧
     ((∀ c ∈ "38".data, isDigit c = true) → specWait "38".data < 2 ^ 53 →
       waitOfCapture "38".data = .ms (specWait "38".data) ∧
       specWait "38".data = natOfDigits "38".data * 1000 + 2000)) :=
  ⟨(firstMatch_eq_some_iff _ _).mp (by decide),
   wait_of_leftmost_match
    (fun _ => .fail ⟨some 429, some "429 Too Many Requests: retry in 38s, not retry in 1s"⟩)
    ⟨some 429, some "429 Too Many Requests: retry in 38s, not retry in 1s"⟩
    "429 Too Many Requests: retry in 38s, not retry in 1s" "38".data rfl rfl (by decide)
    ((firstMatch_eq_some_iff _ _).mp (by decide))⟩

/-- C7: for a rate-limited failure whose message contains no match of the
pattern, the wait computation returns the default 10000 ms, which is the first
wait of the run when the failure is that of the first call. -/
theorem no_match_waits_default (up : Nat → Outcome) (e : UpstreamError) (m : String)
    (hfail : up 0 = .fail e) (hm : e.message = some m) (hr : isRateLimited e = true)
    (hn : ¬ HasMatch m.data) :
    computeWait e = .returns (.ms 10000) ∧
    (generateWithRetry up).sleeps.head? = some (.ms 10000) := by
  have hw : computeWait e = .returns (.ms 10000) := computeWait_of_no_match hm hn
  exact ⟨hw, first_sleep up e _ hfail hr hw⟩

/-- The malformed hint `retry in abcs` with status 429. -/
theorem no_match_waits_default_witness :
    ¬ HasMatch "retry in abcs".data ∧
    (computeWait ⟨some 429, some "retry in abcs"⟩ = .returns (.ms 10000) ∧
     (generateWithRetry (fun _ => .fail ⟨some 429, some "retry in abcs"⟩)).sleeps.head? =
       some (.ms 10000)) :=
  ⟨(firstMatch_eq_none_iff _).mp (by decide),
   no_match_waits_default (fun _ => .fail ⟨some 429, some "retry in abcs"⟩)
    ⟨some 429, some "retry in abcs"⟩ "retry in abcs" rfl rfl (by decide)
    ((firstMatch_eq_none_iff _).mp (by decide))⟩

/-- The malformed hints the spec names contain no match, and neither does a
message without a hint or an empty message. -/
theorem malformed_hints_have_no_match :
    ¬ HasMatch "retry in abcs".data ∧ ¬ HasMatch "retry in .5s".data ∧
    ¬ HasMatch "retry in 5.s".data ∧ ¬ HasMatch "retry in 5 s".data ∧
    ¬ HasMatch "429 Too Many Requests".data ∧ ¬ HasMatch "".data :=
  ⟨(firstMatch_eq_none_iff _).mp (by decide), (firstMatch_eq_none_iff _).mp (by decide),
   (firstMatch_eq_none_iff _).mp (by decide), (firstMatch_eq_none_iff _).mp (by decide),
   (firstMatch_eq_none_iff _).mp (by decide), (firstMatch_eq_none_iff _).mp (by decide)⟩

/-- C8: an error with status 429 and no message is classified as rate-limited,
but computing its wait throws a `TypeError`, which ends the run after one call
without a wait or a retry; with an empty message the wait is the default. -/
theorem status429_without_message_throws_typeError :
    isRateLimited ⟨some 429, none⟩ = true ∧
    computeWait ⟨some 429, none⟩ = .throws .typeError ∧
    generateWithRetry (fun _ => .fail ⟨some 429, none⟩) = ⟨.throws .typeError, 1, []⟩ ∧
    computeWait ⟨some 429, some ""⟩ = .returns (.ms 10000) := by
  decide

/-- C9: when all three calls fail with a rate-limited error, the run makes
three calls and three waits: a wait follows the third failure as well, before
the fixed error is thrown. -/
theorem three_rate_limited_failures_three_sleeps :
    generateWithRetry (fun _ => .fail ⟨some 429, some "429 Too Many Requests"⟩) =
      ⟨.throws (.newError busyMessage), 3, [.ms 10000, .ms 10000, .ms 10000]⟩ := by
  decide

/-- C10: the cleaned text never contains three backticks in a row, and cleaning
a cleaned text changes nothing. -/
theorem cleanJson_no_fence_and_idempotent (t : String) :
    ¬ fence <:+: (cleanJson t).data ∧ cleanJson (cleanJson t) = cleanJson t := by
  have hno : ¬ fence <:+: trim (stripFences t.data) := fun h =>
    stripFences_no_fence t.data (h.trans (trim_isInfix _))
  refine ⟨hno, ?_⟩
  show (⟨trim (stripFences (trim (stripFences t.data)))⟩ : String) = _
  rw [stripFences_eq_self _ hno, trim_trim]
  rfl

end MedDoc
